import Mathlib

/-!
Verification development for the feo speech-recognition engine.

The definitions below are a shallow embedding of the TypeScript source:
strings are Lean `String`s (lists of characters), JavaScript regular
expressions used by the utility functions are modelled by explicit
character-level scanners with the same semantics, and the stateful
`RecognitionManager` class is modelled as a pure state-transition
function returning the new state together with the list of emissions
(subscriber notifications) it produced.
-/

namespace Feo

/-! ### Character utilities

JS `\w` is `[A-Za-z0-9_]`; `String.prototype.toLowerCase` on ASCII is
`Char.toLower`; `\s`-splitting is modelled with `Char.isWhitespace`. -/

/-- JS word character class `\w` = `[A-Za-z0-9_]`. -/
def isWordChar (c : Char) : Bool := c.isAlphanum || c = '_'

/-- The per-token comparison key of `removeDuplicateWords`:
`words[i].toLowerCase().replace(/[^\w]/g, "")`. -/
def normalizeWord (w : List Char) : List Char :=
  (w.map Char.toLower).filter isWordChar

/-- `transcript.trim().split(/\s+/)`: the list of maximal runs of
non-whitespace characters.  Written with one-character lookahead so that
the recursion is structural (hence kernel-computable); the lemma
`splitWs_cons_of_not_ws` below recovers the usual
`takeWhile`/`dropWhile` characterization. -/
def splitWs : List Char → List (List Char)
  | [] => []
  | c :: cs =>
    if c.isWhitespace then splitWs cs
    else
      match cs, splitWs cs with
      | [], _ => [[c]]
      | d :: _, rest =>
        if d.isWhitespace then [c] :: rest
        else
          match rest with
          | [] => [[c]]
          | w :: ws => (c :: w) :: ws

/-- The filtering loop of `removeDuplicateWords`: keep `words[i]` exactly
when its normalized form differs from the normalized form of the previous
(original) word; `prev` carries the normalized previous word (`null` for
the first word, modelled as `none`). -/
def removeDupAux (prev : Option (List Char)) : List (List Char) → List (List Char)
  | [] => []
  | w :: ws =>
    if some (normalizeWord w) = prev then removeDupAux (some (normalizeWord w)) ws
    else w :: removeDupAux (some (normalizeWord w)) ws

/-- `filteredWords.join(" ")`. -/
def joinSpace : List (List Char) → List Char
  | [] => []
  | [w] => w
  | w :: ws => w ++ ' ' :: joinSpace ws

/-- `src/src/App.tsx` `removeDuplicateWords`: guard for empty /
whitespace-only input, then split on whitespace, drop words whose
normalized form equals the normalized previous word, and re-join with
single spaces. -/
def removeDuplicateWords (transcript : String) : String :=
  if transcript.data.all Char.isWhitespace then ""
  else ⟨joinSpace (removeDupAux none (splitWs transcript.data))⟩

/-- The comparison key carried by the duplicate filter after processing
the words `l` when it started with key `p`: the normalized last word of
`l`, or `p` when `l` is empty. -/
def lastNorm (p : Option (List Char)) (l : List (List Char)) : Option (List Char) :=
  match l.getLast? with
  | some w => some (normalizeWord w)
  | none => p

/-- `String.prototype.trim`. -/
def trimChars (l : List Char) : List Char :=
  ((l.dropWhile Char.isWhitespace).reverse.dropWhile Char.isWhitespace).reverse

/-- `src/src/App.tsx` `concatTranscripts`: trim each part, join with a
single space, trim the result, and normalize.  All call sites in the
source pass exactly two parts, so the variadic JS signature is modelled
binarily. -/
def concatTranscripts (a b : String) : String :=
  removeDuplicateWords ⟨trimChars (trimChars a.data ++ ' ' :: trimChars b.data)⟩

/-! ### Similarity scorer (`compareTwoStringsUsingDiceCoefficient`) -/

/-- `replace(/\s+/g, "")`. -/
def stripWhitespace (l : List Char) : List Char := l.filter (fun c => !c.isWhitespace)

/-- The character bigrams `substring(i, i + 2)` for `0 ≤ i < length - 1`. -/
def bigrams : List Char → List (Char × Char)
  | a :: b :: rest => (a, b) :: bigrams (b :: rest)
  | _ => []

/-- The intersection loop of the Dice coefficient: scan the bigrams of the
second string, and for each one still available in the count map of the
first string consume one occurrence and count it. -/
def diceLoop : List (Char × Char) → ((Char × Char) → Nat) → Nat
  | [], _ => 0
  | b :: rest, m =>
    if 0 < m b then 1 + diceLoop rest (fun x => if x = b then m b - 1 else m x)
    else diceLoop rest m

/-- `src/src/App.tsx` `compareTwoStringsUsingDiceCoefficient`, with the
JS float arithmetic modelled exactly in `ℚ`. -/
def compareTwoStringsUsingDiceCoefficient (first second : String) : ℚ :=
  let f := stripWhitespace first.data
  let s := stripWhitespace second.data
  if f = s then 1
  else if f.length < 2 ∨ s.length < 2 then 0
  else ((2 * diceLoop (bigrams s) (fun p => (bigrams f).count p) : ℚ)) /
    (((f.length + s.length - 2 : ℕ) : ℚ))

/-- Modelled from the spec (§4.3): the intersection count described as
"bigrams of the second string consumed from the multiset of bigrams of
the first (no bigram occurrence counted twice)", i.e. the cardinality of
the multiset intersection. -/
def specBigramIntersectionCount (f s : List Char) : ℕ :=
  Multiset.card ((↑(bigrams s) : Multiset (Char × Char)) ∩ ↑(bigrams f))

/-! ### Command pattern compiler (`commandToRegExp`)

The source rewrites the literal command with five global `replace` calls
and wraps the result in `new RegExp("^" + p + "$", "i")`.  Each rewrite
regex is modelled by an explicit scanner with the same semantics
(leftmost match, global restart after each replacement); the produced
pattern string is then parsed into a small regex AST and matched by a
backtracking matcher, which is exact for the boolean result of
`RegExp.prototype.test` on the patterns this compiler can emit. -/

/-- The characters of the `escapeRegExp` class `[-{}[\]+?.,\\^$|#]`. -/
def escapeClass : List Char :=
  ['-', '{', '}', '[', ']', '+', '?', '.', ',', '\\', '^', '$', '|', '#']

/-- `command.replace(escapeRegExp, "\\$&")`. -/
def escapeRegExpStr (s : List Char) : List Char :=
  s.flatMap (fun c => if c ∈ escapeClass then ['\\', c] else [c])

/-- One global-`replace` pass: at each position try the matcher `f`; on a
match emit the replacement and resume after the consumed text, otherwise
copy one character.  `fuel` bounds the recursion; every matcher used here
consumes at least one character, so `fuel = length` is exact. -/
def scanReplace (f : List Char → Option (List Char × List Char)) : Nat → List Char → List Char
  | 0, l => l
  | _ + 1, [] => []
  | fuel + 1, c :: cs =>
    match f (c :: cs) with
    | some (rep, rest) => rep ++ scanReplace f fuel rest
    | none => c :: scanReplace f fuel cs

/-- Scan to the first `")"`, failing on line terminators (which the lazy
dot of `optionalParam` cannot cross). -/
def splitAtCloseParen : List Char → Option (List Char × List Char)
  | [] => none
  | c :: cs =>
    if c = ')' then some ([], cs)
    else if c = '\n' || c = '\r' then none
    else
      match splitAtCloseParen cs with
      | some (content, rest) => some (c :: content, rest)
      | none => none

/-- Matcher for `optionalParam = /\s*\((.*?)\)\s*/` with replacement
`"(?:$1)?"`. -/
def tryOptionalParam (l : List Char) : Option (List Char × List Char) :=
  match l.dropWhile Char.isWhitespace with
  | '(' :: r2 =>
    match splitAtCloseParen r2 with
    | some (content, r3) =>
      some ("(?:".data ++ content ++ ")?".data, r3.dropWhile Char.isWhitespace)
    | none => none
  | _ => none

/-- Matcher for `namedParam = /(\(\?)?:\w+/` with the replacer that keeps
the match when the optional `(?` prefix is present and otherwise emits
`"([^\\s]+)"`. -/
def tryNamedParam (l : List Char) : Option (List Char × List Char) :=
  match l with
  | '(' :: '?' :: ':' :: rest =>
    let w := rest.takeWhile isWordChar
    if w = [] then none
    else some ('(' :: '?' :: ':' :: w, rest.dropWhile isWordChar)
  | ':' :: rest =>
    let w := rest.takeWhile isWordChar
    if w = [] then none
    else some ("([^\\s]+)".data, rest.dropWhile isWordChar)
  | _ => none

/-- Matcher for `splatParam = /\*/` with replacement `"(.*?)"`. -/
def trySplat : List Char → Option (List Char × List Char)
  | '*' :: rest => some ("(.*?)".data, rest)
  | _ => none

/-- Matcher for `optionalRegex = /(\(\?:[^)]+\))\?/` with replacement
`"\\s*$1?\\s*"`. -/
def tryOptionalRegex (l : List Char) : Option (List Char × List Char) :=
  match l with
  | '(' :: '?' :: ':' :: rest =>
    let content := rest.takeWhile (fun c => c ≠ ')')
    if content = [] then none
    else
      match rest.dropWhile (fun c => c ≠ ')') with
      | ')' :: '?' :: r3 =>
        some ("\\s*".data ++ '(' :: '?' :: ':' :: content ++ ")?".data ++ "\\s*".data, r3)
      | _ => none
  | _ => none

/-- The full rewriting chain of `commandToRegExp` for a literal string
command; the result is the body of the produced regex (anchoring with
`^...$` and the `i` flag live in the matcher below). -/
def commandToRegExp (command : String) : List Char :=
  let s0 := escapeRegExpStr command.data
  let s1 := scanReplace tryOptionalParam s0.length s0
  let s2 := scanReplace tryNamedParam s1.length s1
  let s3 := scanReplace trySplat s2.length s2
  scanReplace tryOptionalRegex s3.length s3

/-- Character classes occurring in the emitted patterns. -/
inductive CClass where
  | dot
  | ws
  | nonWs
deriving DecidableEq

/-- Regex AST for the emitted patterns.  `grp true` is a zero-or-one
group (`(...)?` or `(?:...)?`), `grp false` a plain group; stars and
pluses only ever apply to single-character classes in patterns emitted
by this compiler. -/
inductive RNode where
  | lit (c : Char)
  | cls (cl : CClass)
  | star (cl : CClass)
  | plus (cl : CClass)
  | grp (opt : Bool) (body : List RNode)

mutual

/-- Size of one AST node (groups count their body). -/
def nodeSize : RNode → Nat
  | .lit _ => 1
  | .cls _ => 1
  | .star _ => 1
  | .plus _ => 1
  | .grp _ body => 1 + nodesSize body

/-- Size of an AST node list. -/
def nodesSize : List RNode → Nat
  | [] => 0
  | n :: ns => nodeSize n + nodesSize ns

end

/-- Postfix quantifier handling after an atom: `*` (with optional lazy
`?`) and `+` are only valid on character classes; a bare `?` makes the
atom optional. -/
def applyPostfix (cl : Option CClass) (node : RNode) : List Char → Option (RNode × List Char)
  | '*' :: rest =>
    match cl with
    | some c =>
      match rest with
      | '?' :: r2 => some (RNode.star c, r2)
      | _ => some (RNode.star c, rest)
    | none => none
  | '+' :: rest =>
    match cl with
    | some c => some (RNode.plus c, rest)
    | none => none
  | '?' :: rest => some (RNode.grp true [node], rest)
  | rest => some (node, rest)

/-- Parse an emitted pattern into the AST; returns the parsed sequence
and the unconsumed suffix (which starts with `")"` inside a group).
`fuel` bounds the recursion depth; `length + 1` always suffices. -/
def parseSeq : Nat → List Char → Option (List RNode × List Char)
  | 0, _ => none
  | _ + 1, [] => some ([], [])
  | _ + 1, ')' :: rest => some ([], ')' :: rest)
  | fuel + 1, '\\' :: c :: rest =>
    let a : Option (RNode × List Char) :=
      if c = 's' then applyPostfix (some CClass.ws) (RNode.cls CClass.ws) rest
      else applyPostfix none (RNode.lit c) rest
    match a with
    | some (nd, r2) =>
      match parseSeq fuel r2 with
      | some (ns, rr) => some (nd :: ns, rr)
      | none => none
    | none => none
  | _ + 1, ['\\'] => none
  | fuel + 1, '[' :: rest =>
    match rest with
    | '^' :: '\\' :: 's' :: ']' :: r2 =>
      match applyPostfix (some CClass.nonWs) (RNode.cls CClass.nonWs) r2 with
      | some (nd, r3) =>
        match parseSeq fuel r3 with
        | some (ns, rr) => some (nd :: ns, rr)
        | none => none
      | none => none
    | _ => none
  | fuel + 1, '.' :: rest =>
    match applyPostfix (some CClass.dot) (RNode.cls CClass.dot) rest with
    | some (nd, r2) =>
      match parseSeq fuel r2 with
      | some (ns, rr) => some (nd :: ns, rr)
      | none => none
    | none => none
  | fuel + 1, '(' :: rest =>
    let body0 :=
      match rest with
      | '?' :: ':' :: r2 => r2
      | _ => rest
    match parseSeq fuel body0 with
    | some (ns, ')' :: r3) =>
      match applyPostfix none (RNode.grp false ns) r3 with
      | some (nd, r4) =>
        match parseSeq fuel r4 with
        | some (ns2, rr) => some (nd :: ns2, rr)
        | none => none
      | none => none
    | _ => none
  | fuel + 1, c :: rest =>
    match applyPostfix none (RNode.lit c) rest with
    | some (nd, r2) =>
      match parseSeq fuel r2 with
      | some (ns, rr) => some (nd :: ns, rr)
      | none => none
    | none => none

/-- Class membership test. -/
def classMatch (cl : CClass) (c : Char) : Bool :=
  match cl with
  | .dot => !(c = '\n' || c = '\r')
  | .ws => c.isWhitespace
  | .nonWs => !c.isWhitespace

/-- Case-insensitive character comparison (the `i` flag). -/
def charEqCI (a b : Char) : Bool := a.toLower = b.toLower

/-- Anchored backtracking matcher, fuelled to keep the recursion
structural: every recursive call strictly decreases
`input.length + nodesSize pattern`, so `reMatch` below supplies
sufficient fuel and the fuel-exhausted branch is unreachable. -/
def reMatchF : Nat → List RNode → List Char → Bool
  | 0, _, _ => false
  | _ + 1, [], [] => true
  | _ + 1, [], _ :: _ => false
  | _ + 1, .lit _ :: _, [] => false
  | fuel + 1, .lit c :: ps, a :: as => charEqCI c a && reMatchF fuel ps as
  | _ + 1, .cls _ :: _, [] => false
  | fuel + 1, .cls cl :: ps, a :: as => classMatch cl a && reMatchF fuel ps as
  | fuel + 1, .star cl :: ps, input =>
    reMatchF fuel ps input ||
      (match input with
       | [] => false
       | a :: as => classMatch cl a && reMatchF fuel (.star cl :: ps) as)
  | _ + 1, .plus _ :: _, [] => false
  | fuel + 1, .plus cl :: ps, a :: as => classMatch cl a && reMatchF fuel (.star cl :: ps) as
  | fuel + 1, .grp true body :: ps, input =>
    reMatchF fuel (body ++ ps) input || reMatchF fuel ps input
  | fuel + 1, .grp false body :: ps, input => reMatchF fuel (body ++ ps) input

/-- Anchored match of a pattern sequence against the whole input (the
produced regexes are anchored `^...$`).  Laziness and greediness do not
affect this boolean. -/
def reMatch (ps : List RNode) (input : List Char) : Bool :=
  reMatchF (input.length + nodesSize ps + 1) ps input

/-- `commandToRegExp(command).test(input)` for a literal string command. -/
def commandMatches (command input : String) : Bool :=
  let pat := commandToRegExp command
  match parseSeq (pat.length + 1) pat with
  | some (ns, []) => reMatch ns input.data
  | _ => false

/-! ### Result parser (`parseResultsToTranscript`) -/

/-- One recognition alternative of a batch: `results[i].isFinal` and
`results[i][0].transcript` (the code only reads alternative `[0]`). -/
structure SRResult where
  isFinal : Bool
  transcript : String
deriving DecidableEq

/-- `src/src/App.tsx` `parseResultsToTranscript`: iterate the results
from `resultIndex`, normalize each transcript, accumulate by string
concatenation into the interim or the final accumulator, and normalize
each accumulator once more.  Returns `(interimTranscript,
finalTranscript)`. -/
def parseResultsToTranscript (results : List SRResult) (resultIndex : Nat) : String × String :=
  let acc := (results.drop resultIndex).foldl
    (fun (acc : String × String) r =>
      let t := removeDuplicateWords r.transcript
      if r.isFinal then (acc.1, acc.2 ++ t) else (acc.1 ++ t, acc.2))
    ("", "")
  (removeDuplicateWords acc.1, removeDuplicateWords acc.2)

/-! ### Session orchestrator (`RecognitionManager`)

The class is modelled as a record of its mutable fields; each method is
a pure function from the pre-state to the post-state together with the
list of subscriber notifications it emits, in order.  The underlying
recognizer instance is modelled by its two mutable properties; the
outcome of the asynchronous `recognition.start()` primitive is an
explicit input of `startListening`. -/

/-- The recognizer adapter properties the manager mutates. -/
structure RecogInstance where
  continuous : Bool
  lang : String
deriving DecidableEq

/-- The mutable fields of `RecognitionManager`. -/
structure ManagerState where
  recognition : Option RecogInstance
  pauseAfterDisconnect : Bool
  interimTranscript : String
  finalTranscriptState : String
  listening : Bool
  isMicrophoneAvailable : Bool
  previousResultWasFinalOnly : Bool
deriving DecidableEq

/-- Field initializers of the class. -/
def initialManagerState (recognition : Option RecogInstance) : ManagerState :=
  { recognition := recognition
    pauseAfterDisconnect := false
    interimTranscript := ""
    finalTranscriptState := ""
    listening := false
    isMicrophoneAvailable := true
    previousResultWasFinalOnly := false }

/-- A notification fanned out to subscribers. -/
inductive Emission where
  | listeningChange (b : Bool)
  | micAvailabilityChange (b : Bool)
  | transcriptChange (interim final : String)
  | clearTranscript
deriving DecidableEq

/-- `emitListeningChange`: sets `this.listening` and notifies. -/
def emitListeningChange (s : ManagerState) (b : Bool) : ManagerState × List Emission :=
  ({ s with listening := b }, [.listeningChange b])

/-- `emitMicrophoneAvailabilityChange`: sets the flag and notifies. -/
def emitMicrophoneAvailabilityChange (s : ManagerState) (b : Bool) : ManagerState × List Emission :=
  ({ s with isMicrophoneAvailable := b }, [.micAvailabilityChange b])

/-- Private `stop()`: calls `recognition.stop()` and clears `listening`
when a recognizer is attached and listening. -/
def stopPrim (s : ManagerState) : ManagerState :=
  if s.recognition.isSome && s.listening then { s with listening := false } else s

/-- Private `abort()`: same shape as `stop()` with the abort primitive. -/
def abortPrim (s : ManagerState) : ManagerState :=
  if s.recognition.isSome && s.listening then { s with listening := false } else s

/-- The three disconnect intents. -/
inductive DisconnectType where
  | abortT
  | resetT
  | stopT
deriving DecidableEq

/-- Private `disconnect(disconnectType)`. -/
def disconnect (s : ManagerState) (t : DisconnectType) : ManagerState :=
  if s.recognition.isSome && s.listening then
    match t with
    | .abortT => abortPrim { s with pauseAfterDisconnect := true }
    | .resetT => abortPrim { s with pauseAfterDisconnect := false }
    | .stopT => stopPrim { s with pauseAfterDisconnect := true }
  else s

/-- `stopListening()`: disconnect with STOP intent, optimistically emit
`listening = false`, then wait for the end event (bounded by the 100ms
timeout) only if `this.listening` is still true.  The returned boolean
records whether the waiting branch was taken at all. -/
def stopListening (s : ManagerState) : ManagerState × List Emission × Bool :=
  let s1 := disconnect s .stopT
  let se := emitListeningChange s1 false
  (se.1, se.2, se.1.listening)

/-- `abortListening()`: identical shape with the ABORT intent. -/
def abortListening (s : ManagerState) : ManagerState × List Emission × Bool :=
  let s1 := disconnect s .abortT
  let se := emitListeningChange s1 false
  (se.1, se.2, se.1.listening)

/-- Private `resetTranscriptState()`. -/
def resetTranscriptState (s : ManagerState) : ManagerState :=
  { s with interimTranscript := "", finalTranscriptState := "" }

/-- Outcome of the awaited `recognition.start()` primitive. -/
inductive StartOutcome where
  | success
  | domException
  | otherError
deriving DecidableEq

/-- Private `start()`: attempts `recognition.start()` only when attached
and not listening; a thrown error propagates to the caller. -/
def startPrim (s : ManagerState) (o : StartOutcome) : Except StartOutcome ManagerState :=
  if s.recognition.isSome && !s.listening then
    match o with
    | .success => .ok { s with listening := true }
    | e => .error e
  else .ok s

/-- Options of `startListening`. -/
structure StartOptions where
  continuous : Bool := false
  language : Option String := none
deriving DecidableEq

/-- `startListening({continuous, language})`, with the outcome of the
underlying `recognition.start()` call supplied as input. -/
def startListening (s : ManagerState) (opts : StartOptions) (o : StartOutcome) :
    ManagerState × List Emission :=
  match s.recognition with
  | none => (s, [])
  | some rec0 =>
    let isContinuousChanged := opts.continuous != rec0.continuous
    let isLanguageChanged :=
      match opts.language with
      | some l => if l = "" then false else decide (l ≠ rec0.lang)
      | none => false
    let step1 : ManagerState × List Emission :=
      if isContinuousChanged || isLanguageChanged then
        let stopped := if s.listening then
            let r := stopListening s
            (r.1, r.2.1)
          else (s, [])
        let rec1 : RecogInstance :=
          { continuous := if isContinuousChanged then opts.continuous else rec0.continuous
            lang :=
              match opts.language with
              | some l => if isLanguageChanged then l else rec0.lang
              | none => rec0.lang }
        ({ stopped.1 with recognition := some rec1 }, stopped.2)
      else (s, [])
    let s1 := step1.1
    let e1 := step1.2
    if s1.listening then (s1, e1)
    else
      let contNow := match s1.recognition with
        | some r => r.continuous
        | none => false
      let step2 : ManagerState × List Emission :=
        if !contNow then (resetTranscriptState s1, [.clearTranscript])
        else (s1, [])
      let s2 := step2.1
      let e2 := step2.2
      match startPrim s2 o with
      | .ok s3 =>
        let se := emitListeningChange s3 true
        (se.1, e1 ++ e2 ++ se.2)
      | .error .domException => (s2, e1 ++ e2)
      | .error _ =>
        let se := emitMicrophoneAvailabilityChange s2 false
        (se.1, e1 ++ e2 ++ se.2)

/-- The repeated condition of `updateTranscript`:
`results.length === 1 && results[0].isFinal && !this.interimTranscript`,
where `this.interimTranscript` has just been set to the interim text
parsed from the batch. -/
def batchSingleFinalOnly (results : List SRResult) (resultIndex : Nat) : Bool :=
  (results.length == 1) &&
    (match results.head? with
     | some r => r.isFinal
     | none => false) &&
    ((parseResultsToTranscript results resultIndex).1 == "")

/-- `updateTranscript({ results, resultIndex })`: parse the batch,
replace the interim transcript, append a non-empty final fragment via
the combiner, update the duplicate flag, and emit a transcript change
unless the batch is judged a duplicate repeat. -/
def updateTranscript (s : ManagerState) (results : List SRResult) (resultIndex : Nat) :
    ManagerState × List Emission :=
  let parsed := parseResultsToTranscript results resultIndex
  let interimT := parsed.1
  let finalT := parsed.2
  let s1 := { s with interimTranscript := interimT }
  let s2 :=
    if finalT ≠ "" then
      { s1 with finalTranscriptState := concatTranscripts s1.finalTranscriptState finalT }
    else s1
  let isDuplicateResult := s.previousResultWasFinalOnly && batchSingleFinalOnly results resultIndex
  let s3 := { s2 with previousResultWasFinalOnly := batchSingleFinalOnly results resultIndex }
  if isDuplicateResult then (s3, [])
  else (s3, [.transcriptChange s3.interimTranscript s3.finalTranscriptState])

/-- Run a list of result batches through `updateTranscript` from a fresh
manager state (no clear or reset in between). -/
def runUpdates (batches : List (List SRResult × Nat)) : ManagerState :=
  batches.foldl (fun s b => (updateTranscript s b.1 b.2).1) (initialManagerState none)

/-- Modelled from the spec (§4.6): a batch "consisting of exactly one
alternative that is final with no interim text". -/
def singleFinalNoInterim (results : List SRResult) (resultIndex : Nat) : Prop :=
  results.length = 1 ∧ (∀ r ∈ results, r.isFinal = true) ∧
    (parseResultsToTranscript results resultIndex).1 = ""

instance (results : List SRResult) (resultIndex : Nat) :
    Decidable (singleFinalNoInterim results resultIndex) := by
  unfold singleFinalNoInterim; infer_instance

/-! ### Command matching engine (`matchCommands` in the hook)

A command is modelled by the fields the engine reads; its callback is
modelled by the single observable relevant here: whether invoking it
throws.  `matchCommands` returns the ordered list of command indices
whose callbacks were invoked, and whether an exception escaped the pass
(the source has no `try`/`catch` around callback invocation, so a throw
aborts the surrounding `forEach`). -/

/-- The fuzzy-match cleanup of `testFuzzyMatch`:
`replace(/[^a-zA-Z0-9\s]/g, " ").replace(/\s+/g, " ").trim()`. -/
def cleanCommandText (s : String) : String :=
  ⟨joinSpace (splitWs (s.data.map (fun c => if c.isAlphanum || c.isWhitespace then c else ' ')))⟩

/-- A registered command (`SpeechRecognitionCommand`), with the callback
abstracted by whether invoking it throws.  A plain string command is a
singleton list. -/
structure Command where
  command : List String
  matchInterim : Bool := false
  isFuzzyMatch : Bool := false
  fuzzyMatchingThreshold : ℚ := 8 / 10
  bestMatchOnly : Bool := false
  callbackThrows : Bool := false

/-- JS string truthiness check used by `!transcript.trim()`. -/
def isBlank (s : String) : Bool := s.data.all Char.isWhitespace

/-- Invoke the callback `n` times for command index `i`; a throwing
callback aborts after its first invocation. -/
def invokeTimes (i : Nat) (throws : Bool) : Nat → List Nat × Bool
  | 0 => ([], false)
  | n + 1 =>
    if throws then ([i], true)
    else
      let r := invokeTimes i throws n
      (i :: r.1, r.2)

/-- The body of the `forEach` over the registered commands, for the
command at index `i`. -/
def runCommand (i : Nat) (c : Command) (interimTranscript finalTranscript transcript : String) :
    List Nat × Bool :=
  if (interimTranscript ≠ "" && !c.matchInterim) || isBlank transcript then ([], false)
  else
    let testTranscript := if c.matchInterim then transcript else finalTranscript
    if isBlank testTranscript then ([], false)
    else if c.isFuzzyMatch then
      let sims := c.command.map
        (fun cmd => compareTwoStringsUsingDiceCoefficient (cleanCommandText cmd) testTranscript)
      let fuzzyHits := sims.filter (fun sim => c.fuzzyMatchingThreshold ≤ sim)
      if fuzzyHits.length = 0 then ([], false)
      else if c.bestMatchOnly then invokeTimes i c.callbackThrows 1
      else invokeTimes i c.callbackThrows fuzzyHits.length
    else
      invokeTimes i c.callbackThrows
        ((c.command.filter (fun cmd => commandMatches cmd testTranscript)).length)

/-- The `forEach` over the commands starting at index `i`; an escaped
exception (`threw = true`) aborts the remaining iterations. -/
def matchCommandsAux (i : Nat) (cmds : List Command)
    (interimTranscript finalTranscript transcript : String) : List Nat × Bool :=
  match cmds with
  | [] => ([], false)
  | c :: rest =>
    let r := runCommand i c interimTranscript finalTranscript transcript
    if r.2 then (r.1, true)
    else
      let r2 := matchCommandsAux (i + 1) rest interimTranscript finalTranscript transcript
      (r.1 ++ r2.1, r2.2)

/-- `matchCommands(interimTranscript, finalTranscript)` of the hook. -/
def matchCommands (cmds : List Command) (interimTranscript finalTranscript : String) :
    List Nat × Bool :=
  matchCommandsAux 0 cmds interimTranscript finalTranscript
    (concatTranscripts finalTranscript interimTranscript)

/-! ## Lemmas about word splitting -/

theorem splitWs_nil : splitWs [] = [] := rfl

theorem splitWs_cons_of_ws {c : Char} (h : c.isWhitespace = true) (cs : List Char) :
    splitWs (c :: cs) = splitWs cs := by
  simp [splitWs, h]

theorem splitWs_cons_of_not_ws {c : Char} (h : c.isWhitespace = false) (cs : List Char) :
    splitWs (c :: cs) = (c :: cs.takeWhile (fun x => !x.isWhitespace)) ::
      splitWs (cs.dropWhile (fun x => !x.isWhitespace)) := by
  induction cs generalizing c with
  | nil => simp [splitWs, h]
  | cons d ds ih =>
    by_cases hd : d.isWhitespace = true
    · simp [splitWs, h, hd, List.takeWhile_cons, List.dropWhile_cons]
    · have hd2 : d.isWhitespace = false := by simpa using hd
      have hsplit := ih hd2
      simp only [splitWs, hd2, Bool.false_eq_true, if_false] at hsplit
      simp [splitWs, h, hd2, List.takeWhile_cons, List.dropWhile_cons, hsplit]

theorem splitWs_induction (motive : List Char → Prop) (case1 : motive [])
    (case2 : ∀ c cs, c.isWhitespace = true → motive cs → motive (c :: cs))
    (case3 : ∀ c cs, c.isWhitespace = false →
      motive (cs.dropWhile (fun x => !x.isWhitespace)) → motive (c :: cs)) :
    ∀ l, motive l := by
  have key : ∀ n (l : List Char), l.length ≤ n → motive l := by
    intro n
    induction n with
    | zero =>
      intro l hl
      cases l with
      | nil => exact case1
      | cons c cs => simp at hl
    | succ n ih =>
      intro l hl
      cases l with
      | nil => exact case1
      | cons c cs =>
        by_cases hc : c.isWhitespace = true
        · exact case2 c cs hc (ih cs (by simp only [List.length_cons] at hl; omega))
        · refine case3 c cs (by simpa using hc) (ih _ ?_)
          have hle : (cs.dropWhile (fun x => !x.isWhitespace)).length ≤ cs.length :=
            (List.dropWhile_suffix _).length_le
          simp only [List.length_cons] at hl
          omega
  intro l
  exact key l.length l (le_refl _)

theorem takeWhile_append_all {p : Char → Bool} {a : List Char} (b : List Char)
    (h : ∀ x ∈ a, p x = true) : (a ++ b).takeWhile p = a ++ b.takeWhile p := by
  induction a with
  | nil => simp
  | cons x xs ih =>
    simp only [List.cons_append, List.takeWhile_cons, h x (by simp), if_true]
    rw [ih (fun y hy => h y (by simp [hy]))]

theorem dropWhile_append_all {p : Char → Bool} {a : List Char} (b : List Char)
    (h : ∀ x ∈ a, p x = true) : (a ++ b).dropWhile p = b.dropWhile p := by
  induction a with
  | nil => simp
  | cons x xs ih =>
    simp only [List.cons_append, List.dropWhile_cons, h x (by simp), if_true]
    exact ih (fun y hy => h y (by simp [hy]))

theorem splitWs_eq_nil_of_all_ws {l : List Char} (h : ∀ c ∈ l, c.isWhitespace = true) :
    splitWs l = [] := by
  induction l with
  | nil => simp [splitWs]
  | cons c cs ih =>
    rw [splitWs_cons_of_ws (h c (by simp))]
    exact ih (fun x hx => h x (by simp [hx]))

theorem splitWs_words {l : List Char} :
    ∀ w ∈ splitWs l, w ≠ [] ∧ ∀ c ∈ w, c.isWhitespace = false := by
  induction l using splitWs_induction with
  | case1 => simp [splitWs_nil]
  | case2 c cs hws ih =>
    rw [splitWs_cons_of_ws hws]
    exact ih
  | case3 c cs hws ih =>
    rw [splitWs_cons_of_not_ws hws]
    simp only [List.mem_cons]
    intro w hw
    rcases hw with hw | hw
    · subst hw
      refine ⟨by simp, ?_⟩
      intro x hx
      rcases List.mem_cons.mp hx with h1 | h1
      · subst h1; exact hws
      · have := List.mem_takeWhile_imp h1
        simpa using this
    · exact ih w hw

theorem splitWs_not_nil_mem {l : List Char} (w : List Char) (hw : w ∈ splitWs l) : w ≠ [] :=
  (splitWs_words w hw).1

theorem takeWhile_all_eq {p : Char → Bool} {a : List Char} (h : ∀ x ∈ a, p x = true) :
    a.takeWhile p = a := by
  induction a with
  | nil => rfl
  | cons x xs ih =>
    simp only [List.takeWhile_cons, h x (by simp), if_true]
    rw [ih (fun y hy => h y (by simp [hy]))]

theorem dropWhile_all_eq {p : Char → Bool} {a : List Char} (h : ∀ x ∈ a, p x = true) :
    a.dropWhile p = [] := by
  induction a with
  | nil => rfl
  | cons x xs ih =>
    simp only [List.dropWhile_cons, h x (by simp), if_true]
    exact ih (fun y hy => h y (by simp [hy]))

theorem takeWhile_append_not_all {p : Char → Bool} {a : List Char} (b : List Char)
    (h : ¬∀ x ∈ a, p x = true) : (a ++ b).takeWhile p = a.takeWhile p := by
  induction a with
  | nil => exact absurd (by simp) h
  | cons x xs ih =>
    by_cases hx : p x = true
    · simp only [List.cons_append, List.takeWhile_cons, hx, if_true]
      rw [ih (fun hall => h (fun y hy => by
        rcases List.mem_cons.mp hy with h1 | h1
        · subst h1; exact hx
        · exact hall y h1))]
    · simp [List.takeWhile_cons, hx]

theorem dropWhile_append_not_all {p : Char → Bool} {a : List Char} (b : List Char)
    (h : ¬∀ x ∈ a, p x = true) : (a ++ b).dropWhile p = a.dropWhile p ++ b := by
  induction a with
  | nil => exact absurd (by simp) h
  | cons x xs ih =>
    by_cases hx : p x = true
    · simp only [List.cons_append, List.dropWhile_cons, hx, if_true]
      exact ih (fun hall => h (fun y hy => by
        rcases List.mem_cons.mp hy with h1 | h1
        · subst h1; exact hx
        · exact hall y h1))
    · simp [List.dropWhile_cons, hx]

theorem splitWs_append_all_ws {t : List Char} (l : List Char)
    (h : ∀ c ∈ t, c.isWhitespace = true) : splitWs (l ++ t) = splitWs l := by
  induction l using splitWs_induction with
  | case1 =>
    rw [List.nil_append, splitWs_nil]
    exact splitWs_eq_nil_of_all_ws h
  | case2 c cs hws ih =>
    rw [List.cons_append, splitWs_cons_of_ws hws, splitWs_cons_of_ws hws]
    exact ih
  | case3 c cs hws ih =>
    rw [List.cons_append, splitWs_cons_of_not_ws hws, splitWs_cons_of_not_ws hws]
    by_cases hall : ∀ x ∈ cs, (!x.isWhitespace) = true
    · have h3 : t.takeWhile (fun x => !x.isWhitespace) = [] := by
        cases t with
        | nil => rfl
        | cons x xs => simp [List.takeWhile_cons, h x (by simp)]
      have h4 : t.dropWhile (fun x => !x.isWhitespace) = t := by
        cases t with
        | nil => rfl
        | cons x xs => simp [List.dropWhile_cons, h x (by simp)]
      rw [takeWhile_append_all t hall, dropWhile_append_all t hall, h3, h4,
        takeWhile_all_eq hall, dropWhile_all_eq hall, List.append_nil,
        splitWs_eq_nil_of_all_ws h, splitWs_nil]
    · rw [takeWhile_append_not_all t hall, dropWhile_append_not_all t hall]
      rw [ih]

theorem splitWs_dropWhile_ws (l : List Char) :
    splitWs (l.dropWhile Char.isWhitespace) = splitWs l := by
  induction l with
  | nil => rfl
  | cons c cs ih =>
    by_cases hc : c.isWhitespace = true
    · rw [List.dropWhile_cons, if_pos hc, ih, splitWs_cons_of_ws hc]
    · rw [List.dropWhile_cons, if_neg hc]

theorem splitWs_trimChars (l : List Char) : splitWs (trimChars l) = splitWs l := by
  unfold trimChars
  set m := l.dropWhile Char.isWhitespace with hm
  have hsplit : m = (m.reverse.dropWhile Char.isWhitespace).reverse ++
      (m.reverse.takeWhile Char.isWhitespace).reverse := by
    rw [← List.reverse_append, List.takeWhile_append_dropWhile, List.reverse_reverse]
  have hws : ∀ c ∈ (m.reverse.takeWhile Char.isWhitespace).reverse, c.isWhitespace = true := by
    intro c hc
    exact List.mem_takeWhile_imp (List.mem_reverse.mp hc)
  calc splitWs (m.reverse.dropWhile Char.isWhitespace).reverse
      = splitWs ((m.reverse.dropWhile Char.isWhitespace).reverse ++
          (m.reverse.takeWhile Char.isWhitespace).reverse) :=
        (splitWs_append_all_ws _ hws).symm
    _ = splitWs m := by rw [← hsplit]
    _ = splitWs l := splitWs_dropWhile_ws l

theorem splitWs_append_space (a b : List Char) :
    splitWs (a ++ ' ' :: b) = splitWs a ++ splitWs b := by
  induction a using splitWs_induction with
  | case1 =>
    rw [List.nil_append, splitWs_cons_of_ws (by simp) b, splitWs_nil, List.nil_append]
  | case2 c cs hws ih =>
    rw [List.cons_append, splitWs_cons_of_ws hws, splitWs_cons_of_ws hws]
    exact ih
  | case3 c cs hws ih =>
    rw [List.cons_append, splitWs_cons_of_not_ws hws, splitWs_cons_of_not_ws hws]
    by_cases hall : ∀ x ∈ cs, (!x.isWhitespace) = true
    · rw [takeWhile_append_all _ hall, dropWhile_append_all _ hall,
        takeWhile_all_eq hall, dropWhile_all_eq hall]
      have h3 : (' ' :: b).takeWhile (fun x => !x.isWhitespace) = [] := by
        simp [List.takeWhile_cons]
      have h4 : (' ' :: b).dropWhile (fun x => !x.isWhitespace) = ' ' :: b := by
        simp [List.dropWhile_cons]
      rw [h3, h4, List.append_nil, splitWs_nil, splitWs_cons_of_ws (by simp) b]
      rfl
    · rw [takeWhile_append_not_all _ hall, dropWhile_append_not_all _ hall, ih]
      simp

theorem splitWs_singleton {w : List Char} (h0 : w ≠ [])
    (h1 : ∀ c ∈ w, c.isWhitespace = false) : splitWs w = [w] := by
  cases w with
  | nil => exact absurd rfl h0
  | cons c cs =>
    have hc : c.isWhitespace = false := h1 c (by simp)
    have hall : ∀ x ∈ cs, (!x.isWhitespace) = true := by
      intro x hx
      simp [h1 x (by simp [hx])]
    rw [splitWs_cons_of_not_ws hc, takeWhile_all_eq hall, dropWhile_all_eq hall, splitWs_nil]

theorem joinSpace_cons {w : List Char} {ws : List (List Char)} (h : ws ≠ []) :
    joinSpace (w :: ws) = w ++ ' ' :: joinSpace ws := by
  cases ws with
  | nil => exact absurd rfl h
  | cons x xs => rfl

theorem splitWs_joinSpace {ws : List (List Char)}
    (h : ∀ w ∈ ws, w ≠ [] ∧ ∀ c ∈ w, c.isWhitespace = false) :
    splitWs (joinSpace ws) = ws := by
  induction ws with
  | nil => exact splitWs_nil
  | cons w rest ih =>
    cases rest with
    | nil =>
      show splitWs w = [w]
      exact splitWs_singleton (h w (by simp)).1 (h w (by simp)).2
    | cons y ys =>
      rw [joinSpace_cons (by simp), splitWs_append_space,
        splitWs_singleton (h w (by simp)).1 (h w (by simp)).2,
        ih (fun v hv => h v (by simp [hv]))]
      rfl

/-! ## Lemmas about the duplicate filter -/

theorem removeDupAux_length_le (p : Option (List Char)) (l : List (List Char)) :
    (removeDupAux p l).length ≤ l.length := by
  induction l generalizing p with
  | nil => simp [removeDupAux]
  | cons w ws ih =>
    rw [removeDupAux]
    by_cases hw : some (normalizeWord w) = p
    · rw [if_pos hw]
      exact Nat.le_succ_of_le (ih _)
    · rw [if_neg hw]
      simpa using ih (some (normalizeWord w))

theorem removeDupAux_idem (p : Option (List Char)) (l : List (List Char)) :
    removeDupAux p (removeDupAux p l) = removeDupAux p l := by
  induction l generalizing p with
  | nil => simp [removeDupAux]
  | cons w ws ih =>
    rw [removeDupAux]
    by_cases hw : some (normalizeWord w) = p
    · rw [if_pos hw, ← hw]
      exact ih (some (normalizeWord w))
    · rw [if_neg hw, removeDupAux, if_neg hw]
      rw [ih (some (normalizeWord w))]

theorem removeDupAux_sublist (p : Option (List Char)) (l : List (List Char)) :
    (removeDupAux p l).Sublist l := by
  induction l generalizing p with
  | nil => simp [removeDupAux]
  | cons w ws ih =>
    rw [removeDupAux]
    by_cases hw : some (normalizeWord w) = p
    · rw [if_pos hw]
      exact (ih (some (normalizeWord w))).cons w
    · rw [if_neg hw]
      exact (ih (some (normalizeWord w))).cons₂ w

theorem lastNorm_ne_nil {ws : List (List Char)} (h : ws ≠ []) (p q : Option (List Char)) :
    lastNorm p ws = lastNorm q ws := by
  unfold lastNorm
  cases hws : ws.getLast? with
  | some z => rfl
  | none => exact absurd (List.getLast?_eq_none_iff.mp hws) h

theorem lastNorm_cons (p : Option (List Char)) (w : List Char) (ws : List (List Char)) :
    lastNorm p (w :: ws) = lastNorm (some (normalizeWord w)) ws := by
  cases ws with
  | nil => simp [lastNorm]
  | cons y ys =>
    unfold lastNorm
    rw [List.getLast?_cons_cons]
    have := @lastNorm_ne_nil (y :: ys) (by simp) p (some (normalizeWord w))
    unfold lastNorm at this
    exact this

theorem removeDupAux_append_of_fix {p : Option (List Char)} {l : List (List Char)}
    (h : removeDupAux p l = l) (r : List (List Char)) :
    removeDupAux p (l ++ r) = l ++ removeDupAux (lastNorm p l) r := by
  induction l generalizing p with
  | nil => simp [lastNorm]
  | cons w ws ih =>
    rw [removeDupAux] at h
    by_cases hw : some (normalizeWord w) = p
    · rw [if_pos hw] at h
      have hlen := removeDupAux_length_le (some (normalizeWord w)) ws
      rw [h] at hlen
      simp at hlen
    · rw [if_neg hw] at h
      have htail : removeDupAux (some (normalizeWord w)) ws = ws := by
        exact (List.cons.injEq _ _ _ _).mp h |>.2
      rw [List.cons_append, removeDupAux, if_neg hw, ih htail, lastNorm_cons]
      simp

theorem removeDuplicateWords_eq (s : String) :
    removeDuplicateWords s = ⟨joinSpace (removeDupAux none (splitWs s.data))⟩ := by
  unfold removeDuplicateWords
  by_cases h : s.data.all Char.isWhitespace = true
  · rw [if_pos h]
    have : splitWs s.data = [] :=
      splitWs_eq_nil_of_all_ws (by intro c hc; exact List.all_eq_true.mp h c hc)
    rw [this]
    rfl
  · rw [if_neg h]

theorem splitWs_removeDuplicateWords (s : String) :
    splitWs (removeDuplicateWords s).data = removeDupAux none (splitWs s.data) := by
  rw [removeDuplicateWords_eq]
  apply splitWs_joinSpace
  intro w hw
  exact splitWs_words w ((removeDupAux_sublist none (splitWs s.data)).mem hw)

theorem splitWs_concatTranscripts (a b : String) :
    splitWs (concatTranscripts a b).data =
      removeDupAux none (splitWs a.data ++ splitWs b.data) := by
  unfold concatTranscripts
  rw [splitWs_removeDuplicateWords]
  show removeDupAux none (splitWs (trimChars (trimChars a.data ++ ' ' :: trimChars b.data))) = _
  rw [splitWs_trimChars, splitWs_append_space, splitWs_trimChars, splitWs_trimChars]

theorem removeDupAux_head_ne (p : Option (List Char)) (l : List (List Char)) :
    ∀ w, (removeDupAux p l).head? = some w → some (normalizeWord w) ≠ p := by
  induction l generalizing p with
  | nil => intro w hw; simp [removeDupAux] at hw
  | cons v vs ih =>
    intro w hw
    rw [removeDupAux] at hw
    by_cases hv : some (normalizeWord v) = p
    · rw [if_pos hv] at hw
      rw [← hv]
      exact ih (some (normalizeWord v)) w hw
    · rw [if_neg hv] at hw
      simp only [List.head?_cons, Option.some.injEq] at hw
      subst hw
      exact hv

theorem removeDupAux_chain (p : Option (List Char)) (l : List (List Char)) :
    List.Chain' (fun a b => normalizeWord a ≠ normalizeWord b) (removeDupAux p l) := by
  induction l generalizing p with
  | nil => simp [removeDupAux]
  | cons v vs ih =>
    rw [removeDupAux]
    by_cases hv : some (normalizeWord v) = p
    · rw [if_pos hv]
      exact ih _
    · rw [if_neg hv]
      rw [List.chain'_cons']
      refine ⟨?_, ih _⟩
      intro y hy
      have := removeDupAux_head_ne (some (normalizeWord v)) vs y hy
      intro hcontra
      exact this (by rw [hcontra])

/-! ## Lemmas about the Dice intersection loop -/

theorem diceLoop_count_eq_inter_card (l : List (Char × Char)) (A : Multiset (Char × Char)) :
    diceLoop l (fun p => A.count p) = ((↑l : Multiset (Char × Char)) ∩ A).card := by
  induction l generalizing A with
  | nil => simp [diceLoop]
  | cons b rest ih =>
    rw [diceLoop]
    by_cases hb : b ∈ A
    · rw [if_pos (by simpa [Multiset.count_pos] using hb)]
      have hupdate : (fun x => if x = b then A.count b - 1 else A.count x) =
          (fun p => (A.erase b).count p) := by
        funext x
        by_cases hx : x = b
        · subst hx; simp [Multiset.count_erase_self]
        · simp [hx, Multiset.count_erase_of_ne hx]
      rw [hupdate, ih]
      have hcons : (↑(b :: rest) : Multiset (Char × Char)) = b ::ₘ ↑rest := rfl
      rw [hcons, Multiset.cons_inter_of_pos _ hb, Multiset.card_cons]
      omega
    · rw [if_neg (by simpa [Multiset.count_pos] using hb), ih]
      have hcons : (↑(b :: rest) : Multiset (Char × Char)) = b ::ₘ ↑rest := rfl
      rw [hcons, Multiset.cons_inter_of_neg _ hb]

theorem multiset_count_coe_eq (p : Char × Char) (l : List (Char × Char)) :
    Multiset.count p (↑l : Multiset (Char × Char)) = l.count p := by
  induction l with
  | nil => simp
  | cons x xs ih =>
    have hc : (↑(x :: xs) : Multiset (Char × Char)) = x ::ₘ ↑xs := rfl
    rw [hc, Multiset.count_cons, ih, List.count_cons]
    by_cases hxp : x = p
    · subst hxp; simp
    · simp [beq_iff_eq, hxp, Ne.symm hxp]

theorem diceLoop_list_count_eq (sb fb : List (Char × Char)) :
    diceLoop sb (fun p => fb.count p) =
      ((↑sb : Multiset (Char × Char)) ∩ ↑fb).card := by
  have h : (fun p => fb.count p) = (fun p => Multiset.count p (↑fb : Multiset (Char × Char))) := by
    funext p
    rw [multiset_count_coe_eq]
  rw [h]
  exact diceLoop_count_eq_inter_card sb ↑fb

/-! ## Claim theorems -/

/-- C7: the Text Normalizer is idempotent — for every string `x`,
`removeDuplicateWords (removeDuplicateWords x) = removeDuplicateWords x`
— and collapses only immediately-adjacent duplicate tokens, as witnessed
by the documented example. -/
theorem C7_normalizer_idempotent_and_adjacent_only :
    (∀ x : String,
      removeDuplicateWords (removeDuplicateWords x) = removeDuplicateWords x) ∧
    removeDuplicateWords "Hello Hello Hello How you doing Hello How you doing" =
      "Hello How you doing Hello How you doing" := by
  constructor
  · intro x
    rw [removeDuplicateWords_eq (removeDuplicateWords x), splitWs_removeDuplicateWords x,
      removeDupAux_idem, ← removeDuplicateWords_eq]
  · decide

/-- C8 counterexample: the normalizer does not preserve the original
separating whitespace between surviving tokens — on `"a  b"` (two
spaces, no duplicate tokens) it returns `"a b"` (single space), so the
output is not the input even though no token was dropped. -/
theorem C8_whitespace_not_preserved_counterexample :
    removeDuplicateWords "a  b" = "a b" ∧
      removeDuplicateWords "a  b" ≠ "a  b" := by
  constructor
  · decide
  · decide

/-- C8 amended: the normalizer preserves each kept token verbatim
(original casing and punctuation), in order — the output token list is a
sublist of the input token list with no adjacent normalized duplicates —
but it joins the surviving tokens with single spaces instead of the
original whitespace. -/
theorem C8_amended_tokens_verbatim_single_spaced (x : String) :
    (splitWs (removeDuplicateWords x).data).Sublist (splitWs x.data) ∧
    (removeDuplicateWords x).data = joinSpace (splitWs (removeDuplicateWords x).data) ∧
    List.Chain' (fun a b => normalizeWord a ≠ normalizeWord b)
      (splitWs (removeDuplicateWords x).data) := by
  refine ⟨?_, ?_, ?_⟩
  · rw [splitWs_removeDuplicateWords]
    exact removeDupAux_sublist none (splitWs x.data)
  · rw [splitWs_removeDuplicateWords, removeDuplicateWords_eq]
  · rw [splitWs_removeDuplicateWords]
    exact removeDupAux_chain none (splitWs x.data)

/-- C5: the similarity scorer returns exactly `1` for inputs identical
after whitespace stripping, `0` when a stripped input is shorter than
two characters and the inputs are not identical, and otherwise
`2 * I / (len1 + len2 - 2)` where `I` is the multiset intersection of
the bigram multisets (consumption semantics); `score "hello" "helo"`
lies strictly between 0 and 1. -/
theorem C5_dice_coefficient_rules (s1 s2 : String) :
    (stripWhitespace s1.data = stripWhitespace s2.data →
      compareTwoStringsUsingDiceCoefficient s1 s2 = 1) ∧
    (stripWhitespace s1.data ≠ stripWhitespace s2.data →
      ((stripWhitespace s1.data).length < 2 ∨ (stripWhitespace s2.data).length < 2) →
      compareTwoStringsUsingDiceCoefficient s1 s2 = 0) ∧
    (stripWhitespace s1.data ≠ stripWhitespace s2.data →
      2 ≤ (stripWhitespace s1.data).length → 2 ≤ (stripWhitespace s2.data).length →
      compareTwoStringsUsingDiceCoefficient s1 s2 =
        (2 * specBigramIntersectionCount (stripWhitespace s1.data) (stripWhitespace s2.data) : ℚ) /
          (((stripWhitespace s1.data).length + (stripWhitespace s2.data).length - 2 : ℕ) : ℚ)) ∧
    (0 < compareTwoStringsUsingDiceCoefficient "hello" "helo" ∧
      compareTwoStringsUsingDiceCoefficient "hello" "helo" < 1) := by
  refine ⟨?_, ?_, ?_, ?_⟩
  · intro h
    unfold compareTwoStringsUsingDiceCoefficient
    rw [if_pos h]
  · intro hne hlen
    unfold compareTwoStringsUsingDiceCoefficient
    rw [if_neg hne, if_pos hlen]
  · intro hne h1 h2
    unfold compareTwoStringsUsingDiceCoefficient
    rw [if_neg hne, if_neg (by omega)]
    unfold specBigramIntersectionCount
    rw [diceLoop_list_count_eq]
  · have h67 : compareTwoStringsUsingDiceCoefficient "hello" "helo" =
        2 * ((3 : ℕ) : ℚ) / (((7 : ℕ) : ℚ)) := rfl
    constructor
    · rw [h67]; norm_num
    · rw [h67]; norm_num

/-! ## Lemmas about the transcript state machine -/

theorem updateTranscript_fst_prev (s : ManagerState) (results : List SRResult) (i : Nat) :
    (updateTranscript s results i).1.previousResultWasFinalOnly =
      batchSingleFinalOnly results i := by
  unfold updateTranscript
  by_cases hd : (s.previousResultWasFinalOnly && batchSingleFinalOnly results i) = true
  · simp only [hd, if_true]
  · simp only [Bool.not_eq_true] at hd
    simp only [hd, Bool.false_eq_true, if_false]

theorem updateTranscript_fst_interim (s : ManagerState) (results : List SRResult) (i : Nat) :
    (updateTranscript s results i).1.interimTranscript =
      (parseResultsToTranscript results i).1 := by
  unfold updateTranscript
  by_cases hd : (s.previousResultWasFinalOnly && batchSingleFinalOnly results i) = true
  · simp only [hd, if_true]
    all_goals (split <;> rfl)
  · simp only [Bool.not_eq_true] at hd
    simp only [hd, Bool.false_eq_true, if_false]
    all_goals (split <;> rfl)

theorem updateTranscript_fst_final (s : ManagerState) (results : List SRResult) (i : Nat) :
    (updateTranscript s results i).1.finalTranscriptState =
      (if (parseResultsToTranscript results i).2 ≠ "" then
        concatTranscripts s.finalTranscriptState (parseResultsToTranscript results i).2
      else s.finalTranscriptState) := by
  unfold updateTranscript
  by_cases hf : (parseResultsToTranscript results i).2 ≠ ""
  · by_cases hd : (s.previousResultWasFinalOnly && batchSingleFinalOnly results i) = true
    · simp only [hd, if_true]
      rw [if_pos hf, if_pos hf]
    · simp only [Bool.not_eq_true] at hd
      simp only [hd, Bool.false_eq_true, if_false]
      rw [if_pos hf, if_pos hf]
  · by_cases hd : (s.previousResultWasFinalOnly && batchSingleFinalOnly results i) = true
    · simp only [hd, if_true]
      rw [if_neg hf, if_neg hf]
    · simp only [Bool.not_eq_true] at hd
      simp only [hd, Bool.false_eq_true, if_false]
      rw [if_neg hf, if_neg hf]

theorem updateTranscript_snd_nil_iff (s : ManagerState) (results : List SRResult) (i : Nat) :
    (updateTranscript s results i).2 = [] ↔
      (s.previousResultWasFinalOnly = true ∧ batchSingleFinalOnly results i = true) := by
  unfold updateTranscript
  by_cases hd : (s.previousResultWasFinalOnly && batchSingleFinalOnly results i) = true
  · simp only [hd, if_true]
    simpa using Bool.and_eq_true_iff.mp hd
  · simp only [Bool.not_eq_true] at hd
    simp only [hd, Bool.false_eq_true, if_false]
    constructor
    · intro hcontra; cases hcontra
    · intro hcontra
      rw [hcontra.1, hcontra.2] at hd
      cases hd

theorem batchSingleFinalOnly_iff (results : List SRResult) (i : Nat) :
    batchSingleFinalOnly results i = true ↔ singleFinalNoInterim results i := by
  unfold batchSingleFinalOnly singleFinalNoInterim
  cases results with
  | nil => simp
  | cons r rest =>
    cases rest with
    | nil => simp
    | cons y ys => simp

theorem updateTranscript_snd_shape (s : ManagerState) (results : List SRResult) (i : Nat) :
    (updateTranscript s results i).2 = [] ∨ (updateTranscript s results i).2.length = 1 := by
  unfold updateTranscript
  by_cases hd : (s.previousResultWasFinalOnly && batchSingleFinalOnly results i) = true
  · simp [hd]
  · simp only [Bool.not_eq_true] at hd
    simp [hd]

theorem updateTranscript_preserves_normed (s : ManagerState) (results : List SRResult) (i : Nat)
    (hs : removeDupAux none (splitWs s.finalTranscriptState.data) =
      splitWs s.finalTranscriptState.data) :
    removeDupAux none (splitWs (updateTranscript s results i).1.finalTranscriptState.data) =
      splitWs (updateTranscript s results i).1.finalTranscriptState.data := by
  rw [updateTranscript_fst_final]
  by_cases hf : (parseResultsToTranscript results i).2 ≠ ""
  · rw [if_pos hf, splitWs_concatTranscripts, removeDupAux_idem]
  · rw [if_neg hf]
    exact hs

theorem runUpdates_normed (batches : List (List SRResult × Nat)) :
    removeDupAux none (splitWs (runUpdates batches).finalTranscriptState.data) =
      splitWs (runUpdates batches).finalTranscriptState.data := by
  unfold runUpdates
  have key : ∀ (bs : List (List SRResult × Nat)) (s : ManagerState),
      removeDupAux none (splitWs s.finalTranscriptState.data) =
        splitWs s.finalTranscriptState.data →
      removeDupAux none
          (splitWs ((bs.foldl (fun s b => (updateTranscript s b.1 b.2).1) s)).finalTranscriptState.data) =
        splitWs ((bs.foldl (fun s b => (updateTranscript s b.1 b.2).1) s)).finalTranscriptState.data := by
    intro bs
    induction bs with
    | nil => intro s hs; exact hs
    | cons b rest ih =>
      intro s hs
      exact ih _ (updateTranscript_preserves_normed s b.1 b.2 hs)
  exact key batches (initialManagerState none) rfl

/-- C3: a transcript-changed notification is suppressed exactly when the
previous batch was a single final-only alternative with empty parsed
interim and the current batch again consists of a single final
alternative with no interim text; in particular, two consecutive
identical single-final-only batches emit exactly one notification. -/
theorem C3_duplicate_batch_suppression (s0 : ManagerState) (r1 r2 : List SRResult)
    (i1 i2 : Nat) :
    ((updateTranscript (updateTranscript s0 r1 i1).1 r2 i2).2 = [] ↔
      (singleFinalNoInterim r1 i1 ∧ singleFinalNoInterim r2 i2)) ∧
    (s0.previousResultWasFinalOnly = false → singleFinalNoInterim r1 i1 →
      ((updateTranscript s0 r1 i1).2 ++
        (updateTranscript (updateTranscript s0 r1 i1).1 r1 i1).2).length = 1) := by
  constructor
  · rw [updateTranscript_snd_nil_iff, updateTranscript_fst_prev,
      batchSingleFinalOnly_iff, batchSingleFinalOnly_iff]
  · intro hprev hsf
    have h1 : (updateTranscript s0 r1 i1).2 ≠ [] := by
      intro hcontra
      rw [updateTranscript_snd_nil_iff] at hcontra
      rw [hprev] at hcontra
      exact Bool.false_ne_true hcontra.1
    have h1len : (updateTranscript s0 r1 i1).2.length = 1 := by
      rcases updateTranscript_snd_shape s0 r1 i1 with h | h
      · exact absurd h h1
      · exact h
    have h2 : (updateTranscript (updateTranscript s0 r1 i1).1 r1 i1).2 = [] := by
      rw [updateTranscript_snd_nil_iff, updateTranscript_fst_prev, batchSingleFinalOnly_iff]
      exact ⟨hsf, hsf⟩
    rw [List.length_append, h1len, h2]
    rfl

/-- C3 witness: a fresh manager fed the same single-final batch twice
emits exactly one transcript-changed notification. -/
theorem C3_duplicate_batch_suppression_witness :
    ((updateTranscript (initialManagerState none) [⟨true, "hello"⟩] 0).2 ++
      (updateTranscript (updateTranscript (initialManagerState none) [⟨true, "hello"⟩] 0).1
        [⟨true, "hello"⟩] 0).2).length = 1 :=
  (C3_duplicate_batch_suppression (initialManagerState none) [⟨true, "hello"⟩]
    [⟨true, "hello"⟩] 0 0).2 (by rfl) (by decide)

/-- C10: duplicate-batch suppression is shape-only — a suppressed batch
with non-empty parsed final text still appends it to the accumulated
final transcript via the combiner; concretely, a second consecutive
final-only batch with different text grows the final transcript from
`"hello"` to `"hello world"` while emitting no notification. -/
theorem C10_suppressed_batch_still_appends (s : ManagerState) (results : List SRResult)
    (i : Nat) :
    ((updateTranscript s results i).2 = [] →
      (parseResultsToTranscript results i).2 ≠ "" →
      (updateTranscript s results i).1.finalTranscriptState =
        concatTranscripts s.finalTranscriptState (parseResultsToTranscript results i).2) ∧
    ((updateTranscript (updateTranscript (initialManagerState none) [⟨true, "hello"⟩] 0).1
        [⟨true, "world"⟩] 0).2 = [] ∧
      (updateTranscript (initialManagerState none)
        [⟨true, "hello"⟩] 0).1.finalTranscriptState = "hello" ∧
      (updateTranscript (updateTranscript (initialManagerState none) [⟨true, "hello"⟩] 0).1
        [⟨true, "world"⟩] 0).1.finalTranscriptState = "hello world") := by
  refine ⟨?_, ?_, ?_, ?_⟩
  · intro _ hf
    rw [updateTranscript_fst_final, if_pos hf]
  · decide
  · decide
  · decide

/-- C10 witness: the append equation evaluated at the suppressed second
batch. -/
theorem C10_suppressed_batch_still_appends_witness :
    (updateTranscript (updateTranscript (initialManagerState none) [⟨true, "hello"⟩] 0).1
      [⟨true, "world"⟩] 0).1.finalTranscriptState =
      concatTranscripts
        (updateTranscript (initialManagerState none) [⟨true, "hello"⟩] 0).1.finalTranscriptState
        (parseResultsToTranscript [⟨true, "world"⟩] 0).2 :=
  (C10_suppressed_batch_still_appends
    (updateTranscript (initialManagerState none) [⟨true, "hello"⟩] 0).1
    [⟨true, "world"⟩] 0).1 (by decide) (by decide)

/-- C4: across any sequence of result batches from the initial state
(no clear or reset), each update leaves the previous final transcript
token sequence as a prefix of the new one (a non-empty parsed final
fragment is appended via the combiner, never replacing text), while the
interim transcript is fully replaced by the parsed interim text. -/
theorem C4_final_transcript_append_only (batches : List (List SRResult × Nat))
    (results : List SRResult) (i : Nat) :
    (splitWs (runUpdates batches).finalTranscriptState.data) <+:
      (splitWs (updateTranscript (runUpdates batches) results i).1.finalTranscriptState.data) ∧
    (updateTranscript (runUpdates batches) results i).1.finalTranscriptState =
      (if (parseResultsToTranscript results i).2 ≠ "" then
        concatTranscripts (runUpdates batches).finalTranscriptState
          (parseResultsToTranscript results i).2
      else (runUpdates batches).finalTranscriptState) ∧
    (updateTranscript (runUpdates batches) results i).1.interimTranscript =
      (parseResultsToTranscript results i).1 := by
  refine ⟨?_, updateTranscript_fst_final _ _ _, updateTranscript_fst_interim _ _ _⟩
  rw [updateTranscript_fst_final]
  by_cases hf : (parseResultsToTranscript results i).2 ≠ ""
  · rw [if_pos hf, splitWs_concatTranscripts,
      removeDupAux_append_of_fix (runUpdates_normed batches)]
    exact ⟨_, rfl⟩
  · rw [if_neg hf]

/-- C2 (code evaluation): `stopListening` immediately emits
`listening = false`, but the waiting branch is unreachable — the
disconnect-STOP path and `emitListeningChange(false)` both clear
`this.listening` before the `if (this.listening)` guard, so the call
resolves without awaiting the end event or the 100ms timeout, from
every state. -/
theorem C2_stopListening_never_waits (s : ManagerState) :
    (stopListening s).2.1 = [Emission.listeningChange false] ∧
    (stopListening s).2.2 = false ∧
    (stopListening s).1.listening = false :=
  ⟨rfl, rfl, rfl⟩

/-- C9 counterexample: after an unclassified start failure (microphone
marked unavailable), a further `startListening` with no reconfiguration
succeeds and flips `listening` to true — further attempts are not
disabled. -/
theorem C9_failure_does_not_disable_counterexample :
    ((startListening (initialManagerState (some ⟨false, "en-US"⟩))
        {} StartOutcome.otherError).1.isMicrophoneAvailable = false) ∧
    ((startListening
        (startListening (initialManagerState (some ⟨false, "en-US"⟩))
          {} StartOutcome.otherError).1
        {} StartOutcome.success).1.listening = true) := by
  constructor
  · decide
  · decide

/-- C9 amended: a start failure classified as redundant (DOMException)
is swallowed — relative to a successful start, only the final listening
flip and its notification are missing, and the microphone flag is
untouched; any other start failure marks the microphone unavailable and
notifies subscribers, but it does not disable further attempts: an
immediately following `startListening` whose start primitive succeeds
transitions to listening. -/
theorem C9_start_failure_amended (r : RecogInstance) (s : ManagerState) (opts : StartOptions)
    (hrec : s.recognition = some r) (hlisten : s.listening = false)
    (hcont : opts.continuous = r.continuous) (hlang : opts.language = none) :
    ((startListening s opts .success).2 =
      (startListening s opts .domException).2 ++ [Emission.listeningChange true] ∧
     (startListening s opts .success).1 =
      { (startListening s opts .domException).1 with listening := true } ∧
     (startListening s opts .domException).1.isMicrophoneAvailable = s.isMicrophoneAvailable ∧
     (startListening s opts .domException).1.listening = false) ∧
    ((startListening s opts .otherError).1.isMicrophoneAvailable = false ∧
     Emission.micAvailabilityChange false ∈ (startListening s opts .otherError).2 ∧
     (startListening s opts .otherError).1.listening = false) ∧
    ((startListening (startListening s opts .otherError).1 opts .success).1.listening = true) := by
  obtain ⟨rec, pause, it, ft, lst, mic, prev⟩ := s
  obtain ⟨oc, olang⟩ := opts
  simp only at hrec hlisten hcont hlang
  subst hrec hlisten hlang
  obtain ⟨rc, rlang⟩ := r
  simp only at hcont
  subst hcont
  cases oc <;>
    simp [startListening, stopListening, startPrim, resetTranscriptState,
      emitListeningChange, emitMicrophoneAvailabilityChange, disconnect, stopPrim, abortPrim]

/-- C9 witness: the amended behavior at a concrete fresh manager. -/
theorem C9_start_failure_amended_witness :
    (startListening
      (startListening (initialManagerState (some ⟨false, "en-US"⟩))
        {} StartOutcome.otherError).1
      {} StartOutcome.success).1.listening = true :=
  (C9_start_failure_amended ⟨false, "en-US"⟩ (initialManagerState (some ⟨false, "en-US"⟩))
    {} rfl rfl rfl rfl).2.2

/-! ## Lemmas about the command matching pass -/

theorem invokeTimes_mem (i : Nat) (thr : Bool) (n : Nat) :
    ∀ j ∈ (invokeTimes i thr n).1, j = i := by
  induction n with
  | zero => simp [invokeTimes]
  | succ n ih =>
    intro j hj
    rw [invokeTimes] at hj
    by_cases hthr : thr = true
    · subst hthr
      simp at hj
      exact hj
    · simp only [Bool.not_eq_true] at hthr
      subst hthr
      simp only [Bool.false_eq_true, if_false, List.mem_cons] at hj
      rcases hj with hj | hj
      · exact hj
      · exact ih j hj

theorem invokeTimes_threw (i : Nat) (thr : Bool) (n : Nat) :
    (invokeTimes i thr n).2 = true →
    thr = true ∧ i ∈ (invokeTimes i thr n).1 := by
  induction n with
  | zero => intro h; simp [invokeTimes] at h
  | succ n ih =>
    intro h
    rw [invokeTimes] at h ⊢
    by_cases hthr : thr = true
    · subst hthr
      simp
    · simp only [Bool.not_eq_true] at hthr
      subst hthr
      simp only [Bool.false_eq_true, if_false] at h
      exact absurd (ih h).1 (by simp)

theorem invokeTimes_no_throw (i : Nat) (n : Nat) :
    (invokeTimes i false n).2 = false := by
  cases n with
  | zero => rfl
  | succ n =>
    rw [invokeTimes]
    simp only [Bool.false_eq_true, if_false]
    cases n with
    | zero => rfl
    | succ m => exact invokeTimes_no_throw i (m + 1)

theorem runCommand_shape (i : Nat) (c : Command) (it ft tr : String) :
    runCommand i c it ft tr = ([], false) ∨
    ∃ n, runCommand i c it ft tr = invokeTimes i c.callbackThrows n := by
  simp only [runCommand]
  repeat' split
  all_goals
    first
      | exact Or.inl rfl
      | exact Or.inr ⟨_, rfl⟩

theorem runCommand_mem (i : Nat) (c : Command) (it ft tr : String) :
    ∀ j ∈ (runCommand i c it ft tr).1, j = i := by
  rcases runCommand_shape i c it ft tr with h | ⟨n, h⟩
  · rw [h]
    simp
  · rw [h]
    exact invokeTimes_mem i c.callbackThrows n

theorem runCommand_threw (i : Nat) (c : Command) (it ft tr : String) :
    (runCommand i c it ft tr).2 = true →
    c.callbackThrows = true ∧ i ∈ (runCommand i c it ft tr).1 := by
  rcases runCommand_shape i c it ft tr with h | ⟨n, h⟩
  · rw [h]
    intro hcontra
    exact absurd hcontra (by simp)
  · rw [h]
    exact invokeTimes_threw i c.callbackThrows n

theorem runCommand_no_throw (i : Nat) (c : Command) (it ft tr : String)
    (h : c.callbackThrows = false) : (runCommand i c it ft tr).2 = false := by
  rcases runCommand_shape i c it ft tr with hs | ⟨n, hs⟩
  · rw [hs]
  · rw [hs, h]
    exact invokeTimes_no_throw i n

theorem matchCommandsAux_spec (cmds : List Command) (i : Nat) (it ft tr : String) :
    (∀ j ∈ (matchCommandsAux i cmds it ft tr).1, i ≤ j ∧ j < i + cmds.length) ∧
    ((∀ c ∈ cmds, c.callbackThrows = false) →
      (matchCommandsAux i cmds it ft tr).2 = false) ∧
    ((matchCommandsAux i cmds it ft tr).2 = true →
      ∃ k, k ∈ (matchCommandsAux i cmds it ft tr).1 ∧
        (∀ j ∈ (matchCommandsAux i cmds it ft tr).1, j ≤ k) ∧
        i ≤ k ∧ ∃ hk : k - i < cmds.length,
          (cmds.get ⟨k - i, hk⟩).callbackThrows = true) := by
  induction cmds generalizing i with
  | nil =>
    refine ⟨by simp [matchCommandsAux], fun _ => rfl, ?_⟩
    intro h
    simp [matchCommandsAux] at h
  | cons c rest ih =>
    by_cases hr : (runCommand i c it ft tr).2 = true
    · have hrun := runCommand_threw i c it ft tr hr
      have hres : matchCommandsAux i (c :: rest) it ft tr =
          ((runCommand i c it ft tr).1, true) := by
        rw [matchCommandsAux]
        simp only [hr, if_true]
      refine ⟨?_, ?_, ?_⟩
      · intro j hj
        rw [hres] at hj
        have := runCommand_mem i c it ft tr j hj
        subst this
        simp
      · intro hall
        have := runCommand_no_throw i c it ft tr (hall c (by simp))
        rw [this] at hr
        cases hr
      · intro _
        refine ⟨i, ?_, ?_, le_refl i, ?_⟩
        · rw [hres]
          exact hrun.2
        · intro j hj
          rw [hres] at hj
          exact le_of_eq (runCommand_mem i c it ft tr j hj)
        · refine ⟨by simp, ?_⟩
          have hfin : (⟨i - i, by simp⟩ : Fin ((c :: rest).length)) =
              (⟨0, by simp⟩ : Fin ((c :: rest).length)) := by
            apply Fin.ext
            simp
          rw [hfin]
          exact hrun.1
    · simp only [Bool.not_eq_true] at hr
      have hres : matchCommandsAux i (c :: rest) it ft tr =
          ((runCommand i c it ft tr).1 ++ (matchCommandsAux (i + 1) rest it ft tr).1,
            (matchCommandsAux (i + 1) rest it ft tr).2) := by
        rw [matchCommandsAux]
        simp only [hr, Bool.false_eq_true, if_false]
      obtain ⟨ihmem, ihnothrow, ihthrew⟩ := ih (i + 1)
      refine ⟨?_, ?_, ?_⟩
      · intro j hj
        rw [hres] at hj
        rcases List.mem_append.mp hj with hj | hj
        · have := runCommand_mem i c it ft tr j hj
          subst this
          simp
        · have := ihmem j hj
          simp only [List.length_cons]
          omega
      · intro hall
        rw [hres]
        exact ihnothrow (fun d hd => hall d (by simp [hd]))
      · intro hthrew
        rw [hres] at hthrew
        obtain ⟨k, hk1, hk2, hk3, hk4, hk5⟩ := ihthrew hthrew
        refine ⟨k, ?_, ?_, by omega, ?_⟩
        · rw [hres]
          exact List.mem_append.mpr (Or.inr hk1)
        · intro j hj
          rw [hres] at hj
          rcases List.mem_append.mp hj with hj | hj
          · have := runCommand_mem i c it ft tr j hj
            subst this
            omega
          · exact hk2 j hj
        · have hidx : k - i = (k - (i + 1)) + 1 := by omega
          refine ⟨by simp only [List.length_cons]; omega, ?_⟩
          have hget : (c :: rest).get ⟨k - i, by simp only [List.length_cons]; omega⟩ =
              rest.get ⟨k - (i + 1), hk4⟩ := by
            have : (⟨k - i, by simp only [List.length_cons]; omega⟩ :
                Fin (c :: rest).length) =
                ⟨(k - (i + 1)) + 1, by simp only [List.length_cons]; omega⟩ := by
              apply Fin.ext
              simp [hidx]
            rw [this]
            rfl
          rw [hget]
          exact hk5

/-- C1 counterexample: two registered commands whose patterns both match
the final transcript `"hello"`, the first with a throwing callback — the
matching pass invokes only command 0 and the exception escapes
(`threw = true`), while the second command, which matches and is invoked
when the pass reaches it (as the singleton run shows), is never
evaluated. -/
theorem C1_callback_throw_not_isolated_counterexample :
    matchCommands
      [{ command := ["hello"], callbackThrows := true },
       { command := ["hello"] }] "" "hello" = ([0], true) ∧
    matchCommands [{ command := ["hello"] }] "" "hello" = ([0], false) := by
  constructor
  · decide
  · decide

/-- C1 amended: per-command callback failures are not isolated — when no
callback throws the pass completes (no exception escapes), and when the
pass ends with an escaped exception there is a throwing command index
`k` such that every invocation of the pass happened at or before `k`:
the commands after the throwing one are never evaluated. -/
theorem C1_callback_throw_aborts_pass (cmds : List Command) (it ft : String) :
    ((∀ c ∈ cmds, c.callbackThrows = false) → (matchCommands cmds it ft).2 = false) ∧
    ((matchCommands cmds it ft).2 = true →
      ∃ k, k ∈ (matchCommands cmds it ft).1 ∧
        (∀ j ∈ (matchCommands cmds it ft).1, j ≤ k) ∧
        ∃ hk : k < cmds.length, (cmds.get ⟨k, hk⟩).callbackThrows = true) := by
  obtain ⟨_, hnothrow, hthrew⟩ :=
    matchCommandsAux_spec cmds 0 it ft (concatTranscripts ft it)
  constructor
  · intro hall
    exact hnothrow hall
  · intro h
    obtain ⟨k, hk1, hk2, _, hk4, hk5⟩ := hthrew h
    exact ⟨k, hk1, hk2, hk4, hk5⟩

/-- C1 witness: the amended pass behavior at concrete command lists. -/
theorem C1_callback_throw_aborts_pass_witness :
    (matchCommands [{ command := ["hello"] }] "" "hello").2 = false :=
  (C1_callback_throw_aborts_pass [{ command := ["hello"] }] "" "hello").1
    (by intro c hc; simp at hc; rw [hc])

/-- C6: compiling a literal command yields an anchored, case-insensitive
matcher where `*` is a wildcard capturing any run of characters
(including whitespace), `:name` matches exactly one whitespace-free
token, and a parenthesized phrase is optional — evaluated on the
documented examples, together with a positive `:name` match and a
case-insensitivity check. -/
theorem C6_pattern_compiler_examples :
    commandMatches "I want *" "I want pizza and fries" = true ∧
    commandMatches "I am :name" "I am Mary Smith" = false ∧
    commandMatches "I am :name" "I am John" = true ∧
    commandMatches "Hello (there)" "Hello" = true ∧
    commandMatches "Hello (there)" "Hello there" = true ∧
    commandMatches "hello world" "HELLO WORLD" = true ∧
    commandMatches "Hello (there)" "Hello there friend" = false := by
  refine ⟨?_, ?_, ?_, ?_, ?_, ?_, ?_⟩ <;> decide

/-- C5 witness: the rules evaluated at concrete inputs. -/
theorem C5_dice_coefficient_rules_witness :
    compareTwoStringsUsingDiceCoefficient "ab c" "a bc" = 1 ∧
    compareTwoStringsUsingDiceCoefficient "a" "b" = 0 ∧
    compareTwoStringsUsingDiceCoefficient "night" "nacht" =
      (2 * specBigramIntersectionCount (stripWhitespace "night".data)
        (stripWhitespace "nacht".data) : ℚ) /
        (((stripWhitespace "night".data).length + (stripWhitespace "nacht".data).length - 2 : ℕ) : ℚ) := by
  refine ⟨?_, ?_, ?_⟩
  · exact (C5_dice_coefficient_rules "ab c" "a bc").1 (by decide)
  · exact (C5_dice_coefficient_rules "a" "b").2.1 (by decide) (by decide)
  · exact (C5_dice_coefficient_rules "night" "nacht").2.2.1 (by decide) (by decide) (by decide)

end Feo
